import Mathlib

/-!
Verification of the method-catalog pipeline: a shallow embedding of
`generate_method_catalog.py` (heuristic function detection and JSDoc
association) and `analyze_duplicates.py` (duplicate-name grouping, keyword
similarity classification, summary statistics), with theorems settling the
specification's claims about them.

Text is modelled as `List Char` (one `Line` per source line, the file having
been split on newlines, exactly as the Python code does).  Whitespace is the
ASCII whitespace set recognised by Python's `str.strip` and `\s` on the ASCII
plane.
-/

abbrev Line := List Char

/-- ASCII whitespace, as stripped by Python `str.strip()` and matched by `\s`. -/
def pyIsSpace (c : Char) : Bool :=
  c = ' ' || c = '\t' || c = '\n' || c = '\r' || c = '\x0b' || c = '\x0c'

/-- Python `str.strip()`: drop whitespace from both ends. -/
def strip (l : Line) : Line :=
  ((l.dropWhile pyIsSpace).reverse.dropWhile pyIsSpace).reverse

/-- Python `str.startswith`. -/
def startsWith (pre l : Line) : Bool := List.isPrefixOf pre l

/-- Python `str.endswith`. -/
def endsWith (suf l : Line) : Bool := List.isSuffixOf suf l

/-- The guard of the outer scan loop in `extract_jsdoc_comment`:
`line == '' or line.startswith('//')`. -/
def isSkippable (line : Line) : Bool :=
  line.isEmpty || startsWith ("//".toList) line

/-- Python `lines[i].strip()`, with the empty line as the (never observed
out-of-range) default. -/
def lineAt (lines : List Line) (i : Nat) : Line := strip (lines.getD i [])

/-- The inner `while` loop of `extract_jsdoc_comment`: walk upward from index
`i`, prepending each stripped line, stopping after a line that starts with
the `/**` opener (or at the start of the file). -/
def collectUp (lines : List Line) : Nat → List Line → List Line
  | 0, acc => lineAt lines 0 :: acc
  | i + 1, acc =>
    let line := lineAt lines (i + 1)
    if startsWith ("/**".toList) line then line :: acc
    else collectUp lines i (line :: acc)

/-- The outer `while` loop of `extract_jsdoc_comment`: walk upward from index
`i`; a line ending in `*/` starts collection (the inner loop); blank lines
and `//` lines are skipped; any other line stops the scan with nothing. -/
def scanUp (lines : List Line) : Nat → List Line
  | 0 =>
    let line := lineAt lines 0
    if endsWith ("*/".toList) line then [line] else []
  | i + 1 =>
    let line := lineAt lines (i + 1)
    if endsWith ("*/".toList) line then collectUp lines i [line]
    else if isSkippable line then scanUp lines i
    else []

/-- One step of the clean-up loop of `extract_jsdoc_comment`: strip, discard
lines starting with `/**` or `*/`, drop a leading `*` (stripping again), and
discard lines that became empty. -/
def cleanLine (l0 : Line) : Option Line :=
  let l := strip l0
  if startsWith ("/**".toList) l || startsWith ("*/".toList) l then none
  else
    let l2 := if startsWith ("*".toList) l then strip (l.drop 1) else l
    if l2.isEmpty then none else some l2

/-- Python `' '.join`. -/
def joinSpace : List Line → Line
  | [] => []
  | [l] => l
  | l :: ls => l ++ ' ' :: joinSpace ls

/-- The clean-up phase of `extract_jsdoc_comment`. -/
def cleanupJsdoc (ls : List Line) : Line := joinSpace (ls.filterMap cleanLine)

/-- Model of `extract_jsdoc_comment(lines, function_line_index)`: scan upward from the
line above the function line; return the cleaned, space-joined comment text,
or `none` when no comment lines were collected. -/
def extract_jsdoc_comment (lines : List Line) (functionLineIndex : Nat) : Option Line :=
  let commentLines := match functionLineIndex with
    | 0 => []
    | i + 1 => scanUp lines i
  if commentLines.isEmpty then none else some (cleanupJsdoc commentLines)

/-- The sentinel description. -/
def noDescription : Line := "No description available".toList

/-- Python `description or 'No description available'` as stored in a catalog entry:
both a missing comment and one whose cleaned text is empty (falsy) fall back
to the sentinel. -/
def descriptionAt (lines : List Line) (i : Nat) : Line :=
  match extract_jsdoc_comment lines i with
  | none => noDescription
  | some d => if d.isEmpty then noDescription else d

/-- The stripped lines of indices `o` through `t` inclusive. -/
def commentSlice (lines : List Line) (o t : Nat) : List Line :=
  (List.range (t + 1 - o)).map fun k => lineAt lines (o + k)

/-! ## Line-shape matchers

The four regular expressions of `extract_functions_from_file`, each anchored
at the start of the line, are embedded as deterministic parsers (each
quantifier in the patterns is followed by a token disjoint from it, so the
regexes backtrack only in the optional `async` qualifier, which is modelled
explicitly). -/

def isIdentStart (c : Char) : Bool := c.isAlpha || c = '_' || c = '$'

def isIdentChar (c : Char) : Bool := c.isAlphanum || c = '_' || c = '$'

/-- Regex `\s*` (greedy). -/
def skipWs (l : Line) : Line := l.dropWhile pyIsSpace

/-- Regex `([a-zA-Z_$][a-zA-Z0-9_$]*)`: longest identifier at the head of the
input, returned with the rest of the input. -/
def parseIdent : Line → Option (Line × Line)
  | [] => none
  | c :: rest =>
    if isIdentStart c
    then some (c :: rest.takeWhile isIdentChar, rest.dropWhile isIdentChar)
    else none

/-- A single literal character. -/
def expectChar (c : Char) : Line → Option Line
  | [] => none
  | d :: rest => if d = c then some rest else none

/-- A literal character sequence. -/
def expectLit : Line → Line → Option Line
  | [], l => some l
  | _ :: _, [] => none
  | c :: cs, d :: l => if d = c then expectLit cs l else none

/-- Regex `\s+` (greedy): at least one whitespace character. -/
def expectWs1 : Line → Option Line
  | [] => none
  | c :: rest => if pyIsSpace c then some (rest.dropWhile pyIsSpace) else none

/-- Regex `\([^)]*\)`. -/
def parseParens (l : Line) : Option Line :=
  (expectChar '(' l).bind fun l1 =>
    expectChar ')' (l1.dropWhile fun c => decide (c ≠ ')'))

/-- The common tail `([ident])\s*\([^)]*\)\s*\{` of patterns 1, 2 and 4,
returning the captured identifier. -/
def matchAfterIdent (l : Line) : Option Line :=
  (parseIdent l).bind fun p =>
    (parseParens (skipWs p.2)).bind fun r1 =>
      (expectChar '\x7b' (skipWs r1)).map fun _ => p.1

/-- Pattern 1: `^\s*([ident])\s*\([^)]*\)\s*\{`. -/
def matchMethodDef (l : Line) : Option Line := matchAfterIdent (skipWs l)

/-- Pattern 2: `^\s*function\s+([ident])\s*\([^)]*\)\s*\{`. -/
def matchFunctionDecl (l : Line) : Option Line :=
  (expectLit ("function".toList) (skipWs l)).bind fun l1 =>
    (expectWs1 l1).bind fun l2 => matchAfterIdent l2

/-- Pattern 3: `^\s*([ident])\s*=\s*\([^)]*\)\s*=>\s*\{`. -/
def matchArrowFunc (l : Line) : Option Line :=
  (parseIdent (skipWs l)).bind fun p =>
    (expectChar '=' (skipWs p.2)).bind fun r1 =>
      (parseParens (skipWs r1)).bind fun r2 =>
        (expectLit ("=>".toList) (skipWs r2)).bind fun r3 =>
          (expectChar '\x7b' (skipWs r3)).map fun _ => p.1

/-- The `(?:async\s+)?` qualifier of pattern 4 when it consumes input. -/
def asyncQualifier (m : Line) : Option Line :=
  (expectLit ("async".toList) m).bind fun l1 =>
    (expectWs1 l1).bind fun l2 => matchAfterIdent l2

/-- Pattern 4: `^\s*(?:async\s+)?([ident])\s*\([^)]*\)\s*\{`; the optional
group is tried greedily and backtracked when the rest of the pattern fails. -/
def matchAsyncMethod (l : Line) : Option Line :=
  match asyncQualifier (skipWs l) with
  | some name => some name
  | none => matchAfterIdent (skipWs l)

/-- The patterns in the fixed order of the `patterns` list in the source. -/
def patterns : List (Line → Option Line) :=
  [matchMethodDef, matchFunctionDecl, matchArrowFunc, matchAsyncMethod]

/-- The stoplist of control-flow keywords. -/
def controlKeywords : List Line :=
  ["if".toList, "for".toList, "while".toList, "switch".toList,
   "catch".toList, "else".toList]

/-- The inner `for pattern in patterns` loop: on a match whose identifier is
a control-flow keyword the loop `continue`s with the next pattern; otherwise
the identifier is accepted and the loop breaks. -/
def tryPatterns (l : Line) : List (Line → Option Line) → Option Line
  | [] => none
  | p :: ps =>
    match p l with
    | some name => if name ∈ controlKeywords then tryPatterns l ps else some name
    | none => tryPatterns l ps

/-- The identifier the source's per-line pattern loop accepts, if any. -/
def matchLine (l : Line) : Option Line := tryPatterns l patterns

/-- The capture of the first pattern (in priority order) matching the line,
regardless of the stoplist. -/
def firstPatternMatch (l : Line) : List (Line → Option Line) → Option Line
  | [] => none
  | p :: ps =>
    match p l with
    | some name => some name
    | none => firstPatternMatch l ps

/-- The claim's reading of the loop: the first matching pattern wins
outright, its capture being discarded when it is a control-flow keyword. -/
def matchLineSpec (l : Line) : Option Line :=
  match firstPatternMatch l patterns with
  | some name => if name ∈ controlKeywords then none else some name
  | none => none

/-! ## Catalog construction -/

structure CatalogEntry where
  name : Line
  description : Line
  file : Line
  line : Nat
deriving DecidableEq

abbrev Catalog := List (Line × List CatalogEntry)

/-- Model of `extract_functions_from_file` on already-read file contents: for each
line (in order) that the pattern loop accepts, an entry with the associated
JSDoc description (or the sentinel) and the 1-based line number. -/
def extract_functions_from_file (filePath : Line) (lines : List Line) : List CatalogEntry :=
  (List.range lines.length).filterMap fun i =>
    (matchLine (lines.getD i [])).map fun name =>
      { name := name
        description := descriptionAt lines i
        file := filePath
        line := i + 1 }

/-- Model of `generate_catalog` over the scanned files, each path paired with its
contents (`none` models an unreadable file, for which the source's
`try/except` prints a warning and yields no functions).  A file with no
functions is not added to the catalog. -/
def generate_catalog (files : List (Line × Option (List Line))) : Catalog :=
  files.foldl
    (fun catalog f =>
      let functions := match f.2 with
        | none => []
        | some lines => extract_functions_from_file f.1 lines
      if functions.isEmpty then catalog else catalog ++ [(f.1, functions)])
    []

/-- The warnings printed during a generation run: one per unreadable file. -/
def generateWarnings (files : List (Line × Option (List Line))) : List Line :=
  files.filterMap fun f =>
    match f.2 with
    | none => some ("Error reading ".toList ++ f.1)
    | some _ => none

/-! ## Duplicate analysis

Python's `defaultdict(list)` with insertion-ordered keys is modelled as an
association list from key to the accumulated list of values. -/

/-- Append `v` to the group of `key`, creating the group at the end when the
key is new (Python `defaultdict(list)[key].append(v)`). -/
def addToGroup {α : Type} : List (Line × List α) → Line → α → List (Line × List α)
  | [], key, v => [(key, [v])]
  | (k, vs) :: rest, key, v =>
    if k = key then (k, vs ++ [v]) :: rest
    else (k, vs) :: addToGroup rest key v

/-- The group stored under `key` (empty when absent). -/
def getGroup {α : Type} : List (Line × List α) → Line → List α
  | [], _ => []
  | (k, vs) :: rest, key => if k = key then vs else getGroup rest key

/-- The keys of a grouping, in order. -/
def keysOf {α : Type} (g : List (Line × List α)) : List Line := g.map Prod.fst

/-- Sequentially add a list of key/value pairs to a grouping. -/
def addAll {α : Type} (g : List (Line × List α)) (ps : List (Line × α)) :
    List (Line × List α) :=
  ps.foldl (fun g p => addToGroup g p.1 p.2) g

/-- One occurrence of a method name: the `{'file':…, 'description':…,
'line':…}` record built by `analyze_duplicates`. -/
structure Occ where
  file : Line
  description : Line
  line : Nat
deriving DecidableEq

/-- The `methods_by_name` grouping of `analyze_duplicates`: the catalog's
files in order, each file's methods in order. -/
def methodsByName (catalog : Catalog) : List (Line × List Occ) :=
  catalog.foldl
    (fun m p =>
      p.2.foldl (fun m meth => addToGroup m meth.name ⟨p.1, meth.description, meth.line⟩) m)
    []

/-- Model of `analyze_duplicates`: the groups of `methods_by_name` with more than one
occurrence, in first-appearance order of the names. -/
def analyze_duplicates (catalog : Catalog) : List (Line × List Occ) :=
  (methodsByName catalog).filter fun p => decide (1 < p.2.length)

/-- The catalog flattened to (name, occurrence) pairs in discovery order
(file scan order, then in-file order). -/
def namePairs (catalog : Catalog) : List (Line × Occ) :=
  catalog.flatMap fun p => p.2.map fun meth => (meth.name, ⟨p.1, meth.description, meth.line⟩)

/-- The true occurrence list of a name: all its occurrences across the
catalog, in discovery order. -/
def trueOccs (catalog : Catalog) (name : Line) : List Occ :=
  ((namePairs catalog).filter fun p => decide (p.1 = name)).map Prod.snd

/-- The true occurrence count of a name across the whole catalog. -/
def trueCount (catalog : Catalog) (name : Line) : Nat :=
  ((namePairs catalog).filter fun p => decide (p.1 = name)).length

/-! ## Similarity classification -/

/-- The fixed 8-category keyword taxonomy of `analyze_similar_functionality`,
in the source's iteration order. -/
def patternsTable : List (Line × List Line) :=
  [("initialization".toList, ["initialize".toList, "init".toList, "setup".toList, "create".toList]),
   ("disposal".toList, ["dispose".toList, "cleanup".toList, "destroy".toList, "remove".toList]),
   ("update".toList, ["update".toList, "tick".toList, "refresh".toList]),
   ("audio".toList, ["play".toList, "sound".toList, "audio".toList, "music".toList]),
   ("player".toList, ["player".toList, "spawn".toList, "death".toList, "kill".toList]),
   ("weapon".toList, ["weapon".toList, "fire".toList, "shoot".toList, "reload".toList]),
   ("effects".toList, ["effect".toList, "particle".toList, "visual".toList, "animation".toList]),
   ("manager".toList, ["manager".toList, "handle".toList, "process".toList])]

/-- Python `str.lower()` (ASCII). -/
def lowerLine (l : Line) : Line := l.map Char.toLower

/-- Python `sub in s`: contiguous substring test. -/
def isSubstring : Line → Line → Bool
  | needle, [] => needle.isEmpty
  | needle, c :: rest => List.isPrefixOf needle (c :: rest) || isSubstring needle rest

/-- Python `any(keyword.lower() in name.lower() or keyword.lower() in
description.lower() for keyword in keywords)`. -/
def keywordHits (kws : List Line) (name desc : Line) : Bool :=
  kws.any fun kw =>
    isSubstring (lowerLine kw) (lowerLine name) || isSubstring (lowerLine kw) (lowerLine desc)

/-- The `method_info` record appended to a similarity group. -/
structure MethodInfo where
  name : Line
  file : Line
  description : Line
  line : Nat
deriving DecidableEq

/-- Model of `analyze_similar_functionality`: every entry is appended to the group of
every category one of whose keywords occurs (case-insensitively) in its name
or description. -/
def analyze_similar_functionality (catalog : Catalog) : List (Line × List MethodInfo) :=
  catalog.foldl
    (fun groups p =>
      p.2.foldl
        (fun groups meth =>
          patternsTable.foldl
            (fun groups ck =>
              if keywordHits ck.2 meth.name meth.description
              then addToGroup groups ck.1 ⟨meth.name, p.1, meth.description, meth.line⟩
              else groups)
            groups)
        groups)
    ([] : List (Line × List MethodInfo))

/-- The flattened (category, info) pairs generated by the classification, in
generation order. -/
def simPairs (catalog : Catalog) : List (Line × MethodInfo) :=
  catalog.flatMap fun p => p.2.flatMap fun meth =>
    patternsTable.filterMap fun ck =>
      if keywordHits ck.2 meth.name meth.description
      then some (ck.1, ⟨meth.name, p.1, meth.description, meth.line⟩)
      else none

/-! ## Persistence

`save_catalog` serialises the catalog with `json.dump`; `load_catalog` reads
it back with `json.load`.  The persisted document is modelled at the level of
the structured JSON value (the spec's "structured, indentable, human-readable
text document"); the decoder spells out the shape the analysis passes read
back. -/

inductive Json where
  | str : Line → Json
  | num : Nat → Json
  | arr : List Json → Json
  | obj : List (Line × Json) → Json

/-- One catalog entry as the JSON object written by `save_catalog`. -/
def entryToJson (e : CatalogEntry) : Json :=
  .obj [("name".toList, .str e.name),
        ("description".toList, .str e.description),
        ("file".toList, .str e.file),
        ("line".toList, .num e.line)]

/-- Model of `save_catalog`: the persisted document for a catalog. -/
def save_catalog (c : Catalog) : Json :=
  .obj (c.map fun p => (p.1, .arr (p.2.map entryToJson)))

/-- Decode one entry object. -/
def jsonToEntry : Json → Option CatalogEntry
  | .obj [(k1, .str n), (k2, .str d), (k3, .str f), (k4, .num ln)] =>
    if k1 = "name".toList ∧ k2 = "description".toList ∧ k3 = "file".toList ∧
       k4 = "line".toList
    then some ⟨n, d, f, ln⟩ else none
  | _ => none

/-- Decode a file's entry list. -/
def decodeEntries : List Json → Option (List CatalogEntry)
  | [] => some []
  | j :: js =>
    (jsonToEntry j).bind fun e => (decodeEntries js).map fun es => e :: es

/-- Decode the top-level mapping. -/
def decodeFiles : List (Line × Json) → Option Catalog
  | [] => some []
  | (k, v) :: rest =>
    match v with
    | .arr js =>
      (decodeEntries js).bind fun es => (decodeFiles rest).map fun c => (k, es) :: c
    | _ => none

/-- Decode a persisted document back into a catalog. -/
def decodeCatalog : Json → Option Catalog
  | .obj fields => decodeFiles fields
  | _ => none

inductive LoadError where
  | missing
  | malformed
deriving DecidableEq

/-- Model of `load_catalog` as called by the analysis entry point: a missing document
(`none`) raises `FileNotFoundError`, an undecodable one a decoding error;
neither is caught anywhere in `analyze_duplicates.py`. -/
def load_catalog (doc : Option Json) : Except LoadError Catalog :=
  match doc with
  | none => .error .missing
  | some j =>
    match decodeCatalog j with
    | none => .error .malformed
    | some c => .ok c

/-! ## Summary statistics

`duplicate_methods/total_methods*100` is evaluated in Python floating point.
Both operations are IEEE-754 binary64 with round-to-nearest, ties-to-even,
and `:.1f` renders the correctly rounded one-decimal form of the resulting
double.  All values reached here are non-negative and within the normal
(non-subnormal, non-overflowing) range, which is what the model covers.
Rationals are carried as explicit numerator/denominator pairs of naturals. -/

/-- Python `sum(len(methods) for methods in catalog.values())`. -/
def totalMethods (catalog : Catalog) : Nat :=
  (catalog.map fun p => p.2.length).sum

/-- Round `n / d` (with `d > 0`) to the nearest integer, ties to even. -/
def roundHalfEvenNat (n d : Nat) : Nat :=
  let q := n / d
  let r := n % d
  if 2 * r < d then q
  else if d < 2 * r then q + 1
  else if q % 2 = 0 then q else q + 1

/-- Floor base-2 logarithm, structurally recursive on a fuel bound so that
it reduces by kernel computation (`log2Fuel n n = Nat.log2 n`). -/
def log2Fuel : Nat → Nat → Nat
  | 0, _ => 0
  | fuel + 1, n => if n < 2 then 0 else log2Fuel fuel (n / 2) + 1

def natLog2 (n : Nat) : Nat := log2Fuel n n

/-- Whether `2 ^ e ≤ n / d` (for `d > 0`), by cross-multiplying. -/
def pow2LeRatio (n d : Nat) : Int → Bool
  | .ofNat k => decide (d * 2 ^ k ≤ n)
  | .negSucc k => decide (d ≤ n * 2 ^ (k + 1))

/-- The binary exponent of `n / d` (for `n, d > 0`): the unique `e` with
`2 ^ e ≤ n / d < 2 ^ (e + 1)`.  `Nat.log2` brackets it to two candidates. -/
def dblExp (n d : Nat) : Int :=
  let e0 : Int := (natLog2 n : Int) - (natLog2 d : Int)
  if pow2LeRatio n d e0 then e0 else e0 - 1

/-- Round the non-negative rational `n / d` (with `d > 0`) to the nearest
IEEE-754 binary64 value (53-bit significand, round-to-nearest ties-to-even),
returned as a numerator/denominator pair. -/
def flPair (n d : Nat) : Nat × Nat :=
  if n = 0 then (0, 1)
  else
    match (52 : Int) - dblExp n d with
    | .ofNat k => (roundHalfEvenNat (n * 2 ^ k) d, 2 ^ k)
    | .negSucc k => (roundHalfEvenNat n (d * 2 ^ (k + 1)) * 2 ^ (k + 1), 1)

/-- Python `format(m / s, '.1f')` for a non-negative value: the correctly rounded
(ties-to-even) one-decimal rendering. -/
def formatOneDec (m s : Nat) : Line :=
  let tenths := roundHalfEvenNat (10 * m) s
  Nat.toDigits 10 (tenths / 10) ++ '.' :: Nat.toDigits 10 (tenths % 10)

/-- The `Duplication rate: {duplicate_methods/total_methods*100:.1f}%` value
of the summary: `none` models the uncaught `ZeroDivisionError` raised when
the catalog has no entries. -/
def summaryRateLine (catalog : Catalog) : Option Line :=
  let d := (analyze_duplicates catalog).length
  let t := totalMethods catalog
  if t = 0 then none
  else
    let p1 := flPair d t
    let p2 := flPair (100 * p1.1) p1.2
    some (formatOneDec p2.1 p2.2 ++ ['%'])

/-- The analysis entry point up to its summary: loading failures propagate,
a loaded catalog yields the analyses and summary values. -/
def analysisRun (doc : Option Json) :
    Except LoadError
      (List (Line × List Occ) × List (Line × List MethodInfo) × Nat × Nat × Option Line) :=
  match load_catalog doc with
  | .error e => .error e
  | .ok catalog =>
    .ok (analyze_duplicates catalog, analyze_similar_functionality catalog,
         catalog.length, totalMethods catalog, summaryRateLine catalog)

/-! ## Concrete inputs used by witnesses and counterexamples -/

/-- A minimal file: one function-shaped line. -/
def wLinesSimple : List Line := ["foo() \x7b".toList]

/-- The spec's end-to-end JSDoc example file. -/
def wLinesJsdoc : List Line :=
  ["/**".toList, " * Plays the death sound".toList, " */".toList, "".toList,
   "playDeathSound() \x7b".toList]

/-- A well-formed-looking comment whose terminator line carries text, with a
`//` line (itself ending in `*/`) between the comment and the function. -/
def cxLines : List Line :=
  ["/**".toList, " * ok */".toList, "// note */".toList, "foo() \x7b".toList]

/-- A single-line block comment above which ordinary code appears. -/
def cxLinesSingle : List Line :=
  ["a = 1".toList, "/** Plays */".toList, "play() \x7b".toList]

/-- A terminator with no opener anywhere above it. -/
def wLinesNoOpener : List Line :=
  ["const a = 1;".toList, "done */".toList, "".toList, "foo() \x7b".toList]

/-- A two-occurrence catalog used to witness the duplicate analysis. -/
def wCatalogDup : Catalog :=
  [("a.js".toList,
    [⟨"f".toList, noDescription, "a.js".toList, 1⟩,
     ⟨"f".toList, noDescription, "a.js".toList, 5⟩]),
   ("b.js".toList, [⟨"g".toList, noDescription, "b.js".toList, 2⟩])]

/-- The spec's non-exclusive-classification example entry. -/
def wEntrySim : CatalogEntry :=
  ⟨"initAudioEffect".toList, "emits a particle burst".toList, "game.js".toList, 3⟩

def wCatalogSim : Catalog := [("game.js".toList, [wEntrySim])]

def wInfoSim : MethodInfo :=
  ⟨"initAudioEffect".toList, "game.js".toList, "emits a particle burst".toList, 3⟩

/-- A one-entry catalog (non-empty total). -/
def wCatalogOne : Catalog :=
  [("a.js".toList, [⟨"foo".toList, noDescription, "a.js".toList, 1⟩])]

/-- A catalog with 100 entries of which exactly 7 names are duplicated:
7 names occurring twice and 86 occurring once. -/
def wCatalog100 : Catalog :=
  [("a.js".toList,
    ((List.range 7).map fun k =>
      [CatalogEntry.mk ("d".toList ++ Nat.toDigits 10 k) noDescription ("a.js".toList) (2 * k + 1),
       CatalogEntry.mk ("d".toList ++ Nat.toDigits 10 k) noDescription ("a.js".toList) (2 * k + 2)]).flatten
    ++ (List.range 86).map fun k =>
      CatalogEntry.mk ("u".toList ++ Nat.toDigits 10 k) noDescription ("a.js".toList) (k + 15))]

/-- The description prescribed by the claim's words for a block comment: per
line, strip, remove an opening `/**` marker and a closing `*/` marker and a
leading `*` decoration, discard lines that became empty, join with single
spaces.  (The code instead discards whole lines that start with a marker and
never strips a trailing `*/`.) -/
def claimCleanLine (l0 : Line) : Option Line :=
  let l := strip l0
  let l1 := if startsWith ("/**".toList) l then strip (l.drop 3) else l
  let l2 := if endsWith ("*/".toList) l1 then strip (l1.take (l1.length - 2)) else l1
  let l3 := if startsWith ("*".toList) l2 then strip (l2.drop 1) else l2
  if l3.isEmpty then none else some l3

/-- The claim's comment cleanup, applied to the comment's lines. -/
def claimClean (ls : List Line) : Line := joinSpace (ls.filterMap claimCleanLine)

/-! ## Helper lemmas: persistence -/

theorem jsonToEntry_entryToJson (e : CatalogEntry) : jsonToEntry (entryToJson e) = some e := by
  cases e
  simp [entryToJson, jsonToEntry]

theorem decodeEntries_map (es : List CatalogEntry) :
    decodeEntries (es.map entryToJson) = some es := by
  induction es with
  | nil => rfl
  | cons e es ih => simp [decodeEntries, jsonToEntry_entryToJson, ih]

theorem decodeFiles_map (c : Catalog) :
    decodeFiles (c.map fun p => (p.1, Json.arr (p.2.map entryToJson))) = some c := by
  induction c with
  | nil => rfl
  | cons p c ih => simp [decodeFiles, decodeEntries_map, ih]

/-! ## C6: save/load round trip -/

/-- C6: saving a catalog to the persisted document and loading it back
reproduces an equal mapping — the same file-path keys in the same order, the
same per-file entry order, and the same name/description/file/line values. -/
theorem save_load_roundtrip (c : Catalog) :
    load_catalog (some (save_catalog c)) = .ok c := by
  simp [load_catalog, save_catalog, decodeCatalog, decodeFiles_map]

/-! ## C9: zero total entries makes the summary fail -/

/-- C9: the summary's duplication rate divides by the total entry count with
no zero guard, so an empty catalog (total `0`) raises `ZeroDivisionError`
(modelled `none`); with at least one entry the rate is always rendered. -/
theorem summary_rate_zero_guard (catalog : Catalog) :
    (totalMethods catalog = 0 → summaryRateLine catalog = none) ∧
    (totalMethods catalog ≠ 0 → ∃ out, summaryRateLine catalog = some out) := by
  constructor
  · intro h
    simp [summaryRateLine, h]
  · intro h
    simp only [summaryRateLine, if_neg h]
    exact ⟨_, rfl⟩

theorem summary_rate_zero_guard_witness :
    totalMethods ([] : Catalog) = 0 ∧ summaryRateLine ([] : Catalog) = none ∧
    totalMethods wCatalogOne ≠ 0 ∧ ∃ out, summaryRateLine wCatalogOne = some out :=
  ⟨by decide, (summary_rate_zero_guard []).1 (by decide), by decide,
   (summary_rate_zero_guard wCatalogOne).2 (by decide)⟩

/-! ## C7: the rendered duplication rate -/

/-- C7: the summary renders the duplication rate as
`duplicate_methods/total_methods*100` evaluated in binary64 floating point
and formatted to one decimal; for any catalog with 100 total entries and 7
duplicate names the rendered rate is exactly `7.0%`. -/
theorem duplication_rate_100_7 (catalog : Catalog)
    (htotal : totalMethods catalog = 100)
    (hdup : (analyze_duplicates catalog).length = 7) :
    summaryRateLine catalog = some ("7.0%".toList) := by
  simp only [summaryRateLine, htotal, hdup]
  decide

theorem duplication_rate_100_7_witness :
    totalMethods wCatalog100 = 100 ∧ (analyze_duplicates wCatalog100).length = 7 ∧
    summaryRateLine wCatalog100 = some ("7.0%".toList) :=
  ⟨by decide, by decide, duplication_rate_100_7 wCatalog100 (by decide) (by decide)⟩

/-! ## C8: failure containment and propagation -/

/-- C8: an unreadable source file contributes no entries and leaves the rest
of the scan unchanged, and its warning is emitted; a missing or undecodable
persisted catalog document terminates the analysis run with an error. -/
theorem failure_containment :
    (∀ (pre post : List (Line × Option (List Line))) (fp : Line),
       generate_catalog (pre ++ (fp, none) :: post) = generate_catalog (pre ++ post)) ∧
    (∀ (files : List (Line × Option (List Line))) (fp : Line),
       (fp, none) ∈ files → ("Error reading ".toList ++ fp) ∈ generateWarnings files) ∧
    (analysisRun none = .error .missing) ∧
    (∀ j, decodeCatalog j = none → analysisRun (some j) = .error .malformed) := by
  refine ⟨?_, ?_, rfl, ?_⟩
  · intro pre post fp
    simp [generate_catalog, List.foldl_append, List.foldl_cons]
  · intro files fp h
    simp only [generateWarnings, List.mem_filterMap]
    exact ⟨(fp, none), h, rfl⟩
  · intro j h
    simp [analysisRun, load_catalog, h]

theorem failure_containment_witness :
    generate_catalog [("a.js".toList, none)] = generate_catalog [] ∧
    (("a.js".toList, (none : Option (List Line))) ∈ [("a.js".toList, (none : Option (List Line)))] ∧
     ("Error reading a.js".toList ∈ generateWarnings [("a.js".toList, none)])) ∧
    decodeCatalog (Json.num 3) = none ∧
    analysisRun (some (Json.num 3)) = .error .malformed := by
  refine ⟨?_, ⟨by decide, ?_⟩, by decide, failure_containment.2.2.2 (Json.num 3) (by decide)⟩
  · have h := failure_containment.1 [] [] ("a.js".toList)
    simpa using h
  · have h := failure_containment.2.1 [("a.js".toList, none)] ("a.js".toList) (by decide)
    simpa using h

/-! ## Helper lemmas: insertion-ordered grouping -/

theorem getGroup_addToGroup {α : Type} (g : List (Line × List α)) (k : Line) (v : α)
    (k' : Line) :
    getGroup (addToGroup g k v) k' =
      if k' = k then getGroup g k ++ [v] else getGroup g k' := by
  induction g with
  | nil =>
    by_cases h : k' = k
    · subst h
      simp [addToGroup, getGroup]
    · have h2 : ¬ k = k' := fun hx => h hx.symm
      simp [addToGroup, getGroup, h, h2]
  | cons p g ih =>
    obtain ⟨pk, pvs⟩ := p
    by_cases h1 : pk = k
    · subst h1
      by_cases h2 : k' = pk
      · subst h2
        simp [addToGroup, getGroup]
      · have h3 : ¬ pk = k' := fun hx => h2 hx.symm
        simp [addToGroup, getGroup, h2, h3]
    · by_cases h2 : pk = k'
      · subst h2
        simp [addToGroup, getGroup, h1]
      · simp [addToGroup, getGroup, h1, h2, ih]

theorem keysOf_addToGroup {α : Type} (g : List (Line × List α)) (k : Line) (v : α) :
    keysOf (addToGroup g k v) =
      if k ∈ keysOf g then keysOf g else keysOf g ++ [k] := by
  induction g with
  | nil => simp [addToGroup, keysOf]
  | cons p g ih =>
    obtain ⟨pk, pvs⟩ := p
    by_cases h1 : pk = k
    · subst h1
      simp [addToGroup, keysOf]
    · have h2 : ¬ k = pk := fun h => h1 h.symm
      simp only [addToGroup, if_neg h1, keysOf, List.map_cons, List.mem_cons]
      simp only [keysOf] at ih
      rw [ih]
      by_cases h3 : k ∈ g.map Prod.fst <;> simp [h2, h3]

theorem mem_keysOf_addToGroup {α : Type} (g : List (Line × List α)) (k : Line) (v : α)
    (k' : Line) :
    k' ∈ keysOf (addToGroup g k v) ↔ k' ∈ keysOf g ∨ k' = k := by
  rw [keysOf_addToGroup]
  by_cases h : k ∈ keysOf g
  · rw [if_pos h]
    exact ⟨Or.inl, fun hx => hx.elim id fun he => he ▸ h⟩
  · rw [if_neg h, List.mem_append, List.mem_singleton]

theorem nodup_keysOf_addToGroup {α : Type} (g : List (Line × List α)) (k : Line) (v : α)
    (h : (keysOf g).Nodup) : (keysOf (addToGroup g k v)).Nodup := by
  rw [keysOf_addToGroup]
  by_cases h1 : k ∈ keysOf g
  · simp [h1, h]
  · simp [h1, List.nodup_append, h]

theorem getGroup_addAll {α : Type} (ps : List (Line × α)) (g : List (Line × List α))
    (k : Line) :
    getGroup (addAll g ps) k =
      getGroup g k ++ (ps.filter fun p => decide (p.1 = k)).map Prod.snd := by
  induction ps generalizing g with
  | nil => simp [addAll]
  | cons p ps ih =>
    have e : addAll g (p :: ps) = addAll (addToGroup g p.1 p.2) ps := rfl
    rw [e, ih, getGroup_addToGroup]
    by_cases h : k = p.1
    · subst h
      simp [List.filter_cons]
    · have h2 : ¬ p.1 = k := fun hx => h hx.symm
      simp [List.filter_cons, h, h2]

theorem nodup_keysOf_addAll {α : Type} (ps : List (Line × α)) (g : List (Line × List α))
    (h : (keysOf g).Nodup) : (keysOf (addAll g ps)).Nodup := by
  induction ps generalizing g with
  | nil => simpa [addAll]
  | cons p ps ih =>
    have e : addAll g (p :: ps) = addAll (addToGroup g p.1 p.2) ps := rfl
    rw [e]
    exact ih _ (nodup_keysOf_addToGroup _ _ _ h)

theorem mem_keysOf_addAll {α : Type} (ps : List (Line × α)) (g : List (Line × List α))
    (k : Line) :
    k ∈ keysOf (addAll g ps) ↔ k ∈ keysOf g ∨ k ∈ ps.map Prod.fst := by
  induction ps generalizing g with
  | nil => simp [addAll]
  | cons p ps ih =>
    have e : addAll g (p :: ps) = addAll (addToGroup g p.1 p.2) ps := rfl
    rw [e, ih, mem_keysOf_addToGroup, List.map_cons, List.mem_cons]
    tauto

theorem mem_group_iff {α : Type} (g : List (Line × List α)) (k : Line) (vs : List α)
    (h : (keysOf g).Nodup) :
    ((k, vs) ∈ g ↔ k ∈ keysOf g ∧ getGroup g k = vs) := by
  induction g with
  | nil => simp [keysOf, getGroup]
  | cons p g ih =>
    obtain ⟨pk, pvs⟩ := p
    simp only [keysOf, List.map_cons, List.nodup_cons] at h
    obtain ⟨hnm, hnd⟩ := h
    constructor
    · intro hm
      rcases List.mem_cons.mp hm with heq | htail
      · have h1 : pk = k := congrArg Prod.fst heq.symm
        have h2 : pvs = vs := congrArg Prod.snd heq.symm
        subst h1
        subst h2
        simp [keysOf, getGroup]
      · obtain ⟨h1, h2⟩ := (ih hnd).mp htail
        have hne : ¬ pk = k := fun hx => hnm (hx ▸ h1)
        simp only [keysOf, List.map_cons, List.mem_cons, getGroup, if_neg hne]
        exact ⟨Or.inr h1, h2⟩
    · intro hm
      obtain ⟨h1, h2⟩ := hm
      simp only [keysOf, List.map_cons, List.mem_cons] at h1
      rcases h1 with h1 | h1
      · subst h1
        simp only [getGroup, if_pos rfl] at h2
        subst h2
        exact List.mem_cons_self _ _
      · have hne : ¬ pk = k := fun hx => hnm (hx ▸ h1)
        simp only [getGroup, if_neg hne] at h2
        exact List.mem_cons_of_mem _ ((ih hnd).mpr ⟨h1, h2⟩)

/-! ## C2: duplicate analysis -/

theorem foldl_addToGroup_map {α β : Type} (ms : List β) (g : List (Line × List α))
    (f : β → Line × α) :
    ms.foldl (fun m meth => addToGroup m (f meth).1 (f meth).2) g = addAll g (ms.map f) := by
  rw [addAll, List.foldl_map]

theorem addAll_append {α : Type} (g : List (Line × List α)) (ps qs : List (Line × α)) :
    addAll g (ps ++ qs) = addAll (addAll g ps) qs := by
  simp [addAll, List.foldl_append]

theorem methodsByName_eq_addAll (catalog : Catalog) :
    methodsByName catalog = addAll [] (namePairs catalog) := by
  suffices h : ∀ g : List (Line × List Occ),
      catalog.foldl
        (fun m p =>
          p.2.foldl (fun m meth => addToGroup m meth.name ⟨p.1, meth.description, meth.line⟩) m)
        g = addAll g (namePairs catalog) from h []
  induction catalog with
  | nil => intro g; simp [namePairs, addAll]
  | cons p c ih =>
    intro g
    have hinner :
        p.2.foldl (fun m meth => addToGroup m meth.name ⟨p.1, meth.description, meth.line⟩) g =
          addAll g (p.2.map fun meth => (meth.name, ⟨p.1, meth.description, meth.line⟩)) :=
      foldl_addToGroup_map p.2 g fun meth => (meth.name, ⟨p.1, meth.description, meth.line⟩)
    have hpairs : namePairs (p :: c) =
        (p.2.map fun meth => (meth.name, ⟨p.1, meth.description, meth.line⟩)) ++ namePairs c := by
      simp [namePairs]
    rw [List.foldl_cons, hinner, hpairs, addAll_append, ih]

theorem getGroup_methodsByName (catalog : Catalog) (name : Line) :
    getGroup (methodsByName catalog) name = trueOccs catalog name := by
  rw [methodsByName_eq_addAll, getGroup_addAll, trueOccs]
  simp [getGroup]

theorem nodup_keysOf_methodsByName (catalog : Catalog) :
    (keysOf (methodsByName catalog)).Nodup := by
  rw [methodsByName_eq_addAll]
  exact nodup_keysOf_addAll _ _ (by simp [keysOf])

/-- C2: the duplicate report lists exactly the names whose total occurrence
count across the whole catalog exceeds 1; each such name appears exactly once
(the key list has no duplicates), and its occurrence list is the name's true
occurrence list in discovery order (so its length is the true count).
Determinism is immediate: `analyze_duplicates` is a pure function of the
catalog. -/
theorem analyze_duplicates_spec (catalog : Catalog) :
    ((analyze_duplicates catalog).map Prod.fst).Nodup ∧
    (∀ name : Line,
       name ∈ (analyze_duplicates catalog).map Prod.fst ↔ 1 < trueCount catalog name) ∧
    (∀ (name : Line) (occs : List Occ),
       (name, occs) ∈ analyze_duplicates catalog →
         occs = trueOccs catalog name ∧ occs.length = trueCount catalog name) := by
  have hnd : (keysOf (methodsByName catalog)).Nodup := nodup_keysOf_methodsByName catalog
  have hsub : List.Sublist ((analyze_duplicates catalog).map Prod.fst)
      (keysOf (methodsByName catalog)) :=
    (List.filter_sublist _).map Prod.fst
  refine ⟨hsub.nodup hnd, ?_, ?_⟩
  · intro name
    constructor
    · intro h
      obtain ⟨p, hp, hfst⟩ := List.mem_map.mp h
      obtain ⟨hmem, hlen⟩ := List.mem_filter.mp hp
      obtain ⟨pk, pvs⟩ := p
      subst hfst
      show 1 < trueCount catalog pk
      have := (mem_group_iff _ _ _ hnd).mp hmem
      have hg : getGroup (methodsByName catalog) pk = pvs := this.2
      rw [getGroup_methodsByName] at hg
      have hlen2 : 1 < pvs.length := by simpa using hlen
      have : trueCount catalog pk = pvs.length := by
        rw [trueCount, ← hg, trueOccs, List.length_map]
      omega
    · intro h
      have hcnt : 0 < trueCount catalog name := by omega
      have hne : ((namePairs catalog).filter fun p => decide (p.1 = name)) ≠ [] := by
        intro hx
        rw [trueCount, hx] at hcnt
        simp at hcnt
      obtain ⟨q, hq⟩ := List.exists_mem_of_ne_nil _ hne
      have hq2 := List.mem_filter.mp hq
      have hq3 : q.1 = name := by simpa using hq2.2
      have hkey : name ∈ keysOf (methodsByName catalog) := by
        rw [methodsByName_eq_addAll, mem_keysOf_addAll]
        exact Or.inr (List.mem_map.mpr ⟨q, hq2.1, hq3⟩)
      obtain ⟨p, hp, hfst⟩ := List.mem_map.mp hkey
      obtain ⟨pk, pvs⟩ := p
      subst hfst
      have hmem : (pk, pvs) ∈ methodsByName catalog := hp
      have hg := (mem_group_iff _ _ _ hnd).mp hmem
      have hocc : trueOccs catalog pk = pvs := by
        rw [← getGroup_methodsByName, hg.2]
      have hlen : 1 < pvs.length := by
        rw [← hocc, trueOccs, List.length_map]
        exact h
      refine List.mem_map.mpr ⟨(pk, pvs), List.mem_filter.mpr ⟨hmem, by simpa using hlen⟩, rfl⟩
  · intro name occs h
    obtain ⟨hmem, _⟩ := List.mem_filter.mp h
    have hg := (mem_group_iff _ _ _ hnd).mp hmem
    have hocc : occs = trueOccs catalog name := by
      rw [← getGroup_methodsByName, hg.2]
    refine ⟨hocc, ?_⟩
    rw [hocc, trueOccs, trueCount, List.length_map]

theorem analyze_duplicates_spec_witness :
    (("f".toList,
       [⟨"a.js".toList, noDescription, 1⟩, ⟨"a.js".toList, noDescription, 5⟩]) ∈
      analyze_duplicates wCatalogDup) ∧
    ([⟨"a.js".toList, noDescription, 1⟩, ⟨"a.js".toList, noDescription, 5⟩] =
       trueOccs wCatalogDup ("f".toList) ∧
     ([(⟨"a.js".toList, noDescription, 1⟩ : Occ), ⟨"a.js".toList, noDescription, 5⟩]).length =
       trueCount wCatalogDup ("f".toList)) :=
  ⟨by decide, (analyze_duplicates_spec wCatalogDup).2.2 ("f".toList) _ (by decide)⟩

/-! ## C3: similarity classification -/

theorem foldl_table_filterMap {tbl : List (Line × List Line)}
    (g : List (Line × List MethodInfo)) (nm ds : Line) (info : MethodInfo) :
    tbl.foldl
      (fun groups ck =>
        if keywordHits ck.2 nm ds then addToGroup groups ck.1 info else groups) g =
      addAll g (tbl.filterMap fun ck =>
        if keywordHits ck.2 nm ds then some (ck.1, info) else none) := by
  induction tbl generalizing g with
  | nil => simp [addAll]
  | cons ck tbl ih =>
    by_cases h : keywordHits ck.2 nm ds
    · simp only [List.foldl_cons, List.filterMap_cons, if_pos h, ih]
      rfl
    · simp only [List.foldl_cons, List.filterMap_cons, if_neg h, ih]

theorem analyze_similar_eq_addAll (catalog : Catalog) :
    analyze_similar_functionality catalog = addAll [] (simPairs catalog) := by
  suffices h : ∀ g : List (Line × List MethodInfo),
      catalog.foldl
        (fun groups p =>
          p.2.foldl
            (fun groups meth =>
              patternsTable.foldl
                (fun groups ck =>
                  if keywordHits ck.2 meth.name meth.description
                  then addToGroup groups ck.1 ⟨meth.name, p.1, meth.description, meth.line⟩
                  else groups)
                groups)
            groups)
        g = addAll g (simPairs catalog) from h []
  induction catalog with
  | nil => intro g; simp [simPairs, addAll]
  | cons p c ih =>
    intro g
    have hinner : ∀ g0 : List (Line × List MethodInfo),
        p.2.foldl
          (fun groups meth =>
            patternsTable.foldl
              (fun groups ck =>
                if keywordHits ck.2 meth.name meth.description
                then addToGroup groups ck.1 ⟨meth.name, p.1, meth.description, meth.line⟩
                else groups)
              groups)
          g0 =
          addAll g0 (p.2.flatMap fun meth =>
            patternsTable.filterMap fun ck =>
              if keywordHits ck.2 meth.name meth.description
              then some (ck.1, ⟨meth.name, p.1, meth.description, meth.line⟩)
              else none) := by
      induction p.2 with
      | nil => intro g0; simp [addAll]
      | cons meth ms ihm =>
        intro g0
        rw [List.foldl_cons, List.flatMap_cons, addAll_append, ← ihm, foldl_table_filterMap]
    have hpairs : simPairs (p :: c) =
        (p.2.flatMap fun meth =>
          patternsTable.filterMap fun ck =>
            if keywordHits ck.2 meth.name meth.description
            then some (ck.1, ⟨meth.name, p.1, meth.description, meth.line⟩)
            else none) ++ simPairs c := by
      simp [simPairs]
    rw [List.foldl_cons, hinner, hpairs, addAll_append, ih]

theorem table_key_unique {β : Type} (l : List (Line × β)) (hnd : (l.map Prod.fst).Nodup)
    (a : Line) (b b' : β) (h1 : (a, b) ∈ l) (h2 : (a, b') ∈ l) : b = b' := by
  induction l with
  | nil => cases h1
  | cons p l ih =>
    simp only [List.map_cons, List.nodup_cons] at hnd
    rcases List.mem_cons.mp h1 with he1 | ht1
    · rcases List.mem_cons.mp h2 with he2 | ht2
      · rw [← he1] at he2
        exact (Prod.mk.injEq .. ▸ he2).2.symm
      · exfalso
        exact hnd.1 (he1 ▸ List.mem_map.mpr ⟨(a, b'), ht2, rfl⟩)
    · rcases List.mem_cons.mp h2 with he2 | ht2
      · exfalso
        exact hnd.1 (he2 ▸ List.mem_map.mpr ⟨(a, b), ht1, rfl⟩)
      · exact ih hnd.2 ht1 ht2

/-- C3: an entry lands in a category's group exactly when one of the
category's keywords is a case-insensitive substring of its name or of its
description; the classification is non-exclusive, witnessed by the spec's
`initAudioEffect`/`particle` example landing in `initialization`, `audio`
and `effects` simultaneously. -/
theorem analyze_similar_spec :
    (∀ (catalog : Catalog) (cat : Line) (kws : List Line),
       (cat, kws) ∈ patternsTable →
       ∀ info : MethodInfo,
         (info ∈ getGroup (analyze_similar_functionality catalog) cat ↔
           ∃ p, p ∈ catalog ∧ ∃ meth, meth ∈ p.2 ∧
             info = ⟨meth.name, p.1, meth.description, meth.line⟩ ∧
             keywordHits kws meth.name meth.description = true)) ∧
    (wInfoSim ∈ getGroup (analyze_similar_functionality wCatalogSim) ("initialization".toList) ∧
     wInfoSim ∈ getGroup (analyze_similar_functionality wCatalogSim) ("audio".toList) ∧
     wInfoSim ∈ getGroup (analyze_similar_functionality wCatalogSim) ("effects".toList)) := by
  constructor
  · intro catalog cat kws hck info
    have htable : (patternsTable.map Prod.fst).Nodup := by decide
    rw [analyze_similar_eq_addAll, getGroup_addAll]
    simp only [getGroup, List.nil_append]
    constructor
    · intro h
      obtain ⟨q, hq, hq2⟩ := List.mem_map.mp h
      obtain ⟨hq3, hq4⟩ := List.mem_filter.mp hq
      simp only [simPairs, List.mem_flatMap, List.mem_filterMap] at hq3
      obtain ⟨p, hp, meth, hmeth, ck, hckmem, hck2⟩ := hq3
      split_ifs at hck2 with hhit
      · have hqe : (ck.1, (⟨meth.name, p.1, meth.description, meth.line⟩ : MethodInfo)) = q :=
          Option.some.inj hck2
        have hcat : ck.1 = cat := by
          have h4 : q.1 = cat := of_decide_eq_true hq4
          rw [← hqe] at h4
          exact h4
        have hckmem2 : (cat, ck.2) ∈ patternsTable := by
          rw [← hcat]
          exact hckmem
        have hkws : ck.2 = kws :=
          table_key_unique patternsTable htable cat ck.2 kws hckmem2 hck
        refine ⟨p, hp, meth, hmeth, ?_, ?_⟩
        · rw [← hq2, ← hqe]
        · rw [← hkws]
          exact hhit
    · intro h
      obtain ⟨p, hp, meth, hmeth, hinfo, hhit⟩ := h
      refine List.mem_map.mpr ⟨(cat, info), List.mem_filter.mpr ⟨?_, by simp⟩, rfl⟩
      simp only [simPairs, List.mem_flatMap, List.mem_filterMap]
      refine ⟨p, hp, meth, hmeth, (cat, kws), hck, ?_⟩
      rw [if_pos hhit, hinfo]
  · exact ⟨by decide, by decide, by decide⟩

theorem analyze_similar_spec_witness :
    (("audio".toList, ["play".toList, "sound".toList, "audio".toList, "music".toList])
       ∈ patternsTable ∧
    (wInfoSim ∈ getGroup (analyze_similar_functionality wCatalogSim) ("audio".toList) ↔
      ∃ p, p ∈ wCatalogSim ∧ ∃ meth, meth ∈ p.2 ∧
        wInfoSim = ⟨meth.name, p.1, meth.description, meth.line⟩ ∧
        keywordHits ["play".toList, "sound".toList, "audio".toList, "music".toList]
          meth.name meth.description = true)) :=
  ⟨by decide,
   analyze_similar_spec.1 wCatalogSim ("audio".toList)
     (["play".toList, "sound".toList, "audio".toList, "music".toList]) (by decide) wInfoSim⟩

/-! ## C5: the keyword stoplist -/

theorem tryPatterns_no_keyword (l : Line) (ps : List (Line → Option Line)) (n : Line)
    (h : tryPatterns l ps = some n) : n ∉ controlKeywords := by
  induction ps with
  | nil => cases h
  | cons p ps ih =>
    cases hp : p l with
    | none =>
      simp only [tryPatterns, hp] at h
      exact ih h
    | some name =>
      simp only [tryPatterns, hp] at h
      by_cases hk : name ∈ controlKeywords
      · rw [if_pos hk] at h
        exact ih h
      · rw [if_neg hk] at h
        cases h
        exact hk

/-- C5: no catalog entry is ever produced whose name is one of the
control-flow keywords `if`, `for`, `while`, `switch`, `catch`, `else`. -/
theorem no_keyword_entries (fp : Line) (lines : List Line) (e : CatalogEntry)
    (h : e ∈ extract_functions_from_file fp lines) : e.name ∉ controlKeywords := by
  obtain ⟨i, _, hmap⟩ := List.mem_filterMap.mp h
  obtain ⟨name, hname, hent⟩ := Option.map_eq_some'.mp hmap
  have : e.name = name := by rw [← hent]
  rw [this]
  exact tryPatterns_no_keyword _ _ _ hname

theorem no_keyword_entries_witness :
    ((⟨"foo".toList, noDescription, "a.js".toList, 1⟩ : CatalogEntry) ∈
       extract_functions_from_file ("a.js".toList) wLinesSimple) ∧
    ("foo".toList ∉ controlKeywords) :=
  ⟨by decide,
   no_keyword_entries ("a.js".toList) wLinesSimple
     ⟨"foo".toList, noDescription, "a.js".toList, 1⟩ (by decide)⟩

/-! ## C4: matcher priority — parser inversion lemmas -/

theorem takeWhile_append_edge {p : Char → Bool} :
    ∀ (a b : Line), (∀ x ∈ a, p x = true) →
    (∀ d b', b = d :: b' → p d = false) →
    (a ++ b).takeWhile p = a ∧ (a ++ b).dropWhile p = b
  | [], b, _, hb => by
    cases b with
    | nil => simp
    | cons d b' => simp [List.takeWhile_cons, List.dropWhile_cons, hb d b' rfl]
  | x :: a, b, ha, hb => by
    have hx : p x = true := ha x (List.mem_cons_self _ _)
    have ih := takeWhile_append_edge a b (fun y hy => ha y (List.mem_cons_of_mem _ hy)) hb
    simp [List.takeWhile_cons, List.dropWhile_cons, hx, ih.1, ih.2]

theorem dropWhile_head_not {p : Char → Bool} :
    ∀ (l : Line) (d : Char) (r : Line), l.dropWhile p = d :: r → p d = false
  | [], _, _, h => by cases h
  | c :: l, d, r, h => by
    rw [List.dropWhile_cons] at h
    by_cases hc : p c = true
    · rw [if_pos hc] at h
      exact dropWhile_head_not l d r h
    · rw [if_neg hc] at h
      injection h with h1 _
      rw [← h1]
      simpa using hc

theorem expectLit_some : ∀ (pre l r : Line), expectLit pre l = some r → l = pre ++ r
  | [], l, r, h => by
    simp only [expectLit, Option.some.injEq] at h
    subst h
    rfl
  | _ :: _, [], _, h => by cases h
  | c :: cs, d :: l, r, h => by
    simp only [expectLit] at h
    by_cases hd : d = c
    · rw [if_pos hd] at h
      have := expectLit_some cs l r h
      rw [hd, this]
      rfl
    · rw [if_neg hd] at h
      cases h

theorem expectChar_some (c : Char) (l r : Line) (h : expectChar c l = some r) : l = c :: r := by
  cases l with
  | nil => cases h
  | cons d rest =>
    simp only [expectChar] at h
    by_cases hd : d = c
    · rw [if_pos hd] at h
      cases h
      rw [hd]
    · rw [if_neg hd] at h
      cases h

theorem expectWs1_some (l r : Line) (h : expectWs1 l = some r) :
    ∃ w l', l = w :: l' ∧ pyIsSpace w = true ∧ r = l'.dropWhile pyIsSpace := by
  cases l with
  | nil => cases h
  | cons w l' =>
    simp only [expectWs1] at h
    by_cases hw : pyIsSpace w = true
    · rw [if_pos hw] at h
      exact ⟨w, l', rfl, hw, (Option.some.inj h).symm⟩
    · rw [if_neg hw] at h
      cases h

theorem parseIdent_some (l : Line) (n r : Line) (h : parseIdent l = some (n, r)) :
    ∃ c rest, l = c :: rest ∧ isIdentStart c = true ∧
      n = c :: rest.takeWhile isIdentChar ∧ r = rest.dropWhile isIdentChar := by
  cases l with
  | nil => cases h
  | cons c rest =>
    simp only [parseIdent] at h
    by_cases hc : isIdentStart c = true
    · rw [if_pos hc] at h
      have hpair := Option.some.inj h
      exact ⟨c, rest, rfl, hc,
        (congrArg Prod.fst hpair).symm, (congrArg Prod.snd hpair).symm⟩
    · rw [if_neg hc] at h
      cases h

theorem parseIdent_append (c : Char) (a b : Line) (hc : isIdentStart c = true)
    (ha : ∀ x ∈ a, isIdentChar x = true)
    (hb : ∀ d b', b = d :: b' → isIdentChar d = false) :
    parseIdent (c :: (a ++ b)) = some (c :: a, b) := by
  have he := takeWhile_append_edge a b ha hb
  simp only [parseIdent, if_pos hc, he.1, he.2]

theorem ws_not_identChar (c : Char) (h : pyIsSpace c = true) : isIdentChar c = false := by
  simp only [pyIsSpace, Bool.or_eq_true, decide_eq_true_eq] at h
  rcases h with ((((h | h) | h) | h) | h) | h <;> subst h <;> decide

theorem parseParens_some (l r : Line) (h : parseParens l = some r) : ∃ t, l = '(' :: t := by
  simp only [parseParens, Option.bind_eq_some] at h
  obtain ⟨l1, he, _⟩ := h
  exact ⟨l1, expectChar_some _ _ _ he⟩

theorem matchAfterIdent_some (l : Line) (N : Line) (h : matchAfterIdent l = some N) :
    ∃ r r1 r2, parseIdent l = some (N, r) ∧ parseParens (skipWs r) = some r1 ∧
      expectChar '\x7b' (skipWs r1) = some r2 := by
  simp only [matchAfterIdent, Option.bind_eq_some, Option.map_eq_some'] at h
  obtain ⟨⟨name, r⟩, hpi, r1, hpp, r2, hec, hname⟩ := h
  subst hname
  exact ⟨r, r1, r2, hpi, hpp, hec⟩

theorem asyncQualifier_some (m : Line) (M : Line) (h : asyncQualifier m = some M) :
    ∃ l1 l2, expectLit ("async".toList) m = some l1 ∧ expectWs1 l1 = some l2 ∧
      matchAfterIdent l2 = some M := by
  simp only [asyncQualifier, Option.bind_eq_some] at h
  obtain ⟨l1, he, l2, hw, hmai⟩ := h
  exact ⟨l1, l2, he, hw, hmai⟩

theorem matchFunctionDecl_some (l : Line) (N : Line) (h : matchFunctionDecl l = some N) :
    ∃ l1 l2, expectLit ("function".toList) (skipWs l) = some l1 ∧ expectWs1 l1 = some l2 ∧
      matchAfterIdent l2 = some N := by
  simp only [matchFunctionDecl, Option.bind_eq_some] at h
  obtain ⟨l1, he, l2, hw, hmai⟩ := h
  exact ⟨l1, l2, he, hw, hmai⟩

theorem matchArrowFunc_some (l : Line) (N : Line) (h : matchArrowFunc l = some N) :
    ∃ r r1 r2 r3 r4, parseIdent (skipWs l) = some (N, r) ∧
      expectChar '=' (skipWs r) = some r1 ∧ parseParens (skipWs r1) = some r2 ∧
      expectLit ("=>".toList) (skipWs r2) = some r3 ∧
      expectChar '\x7b' (skipWs r3) = some r4 := by
  simp only [matchArrowFunc, Option.bind_eq_some, Option.map_eq_some'] at h
  obtain ⟨⟨name, r⟩, hpi, r1, hc1, r2, hc2, r3, hc3, r4, hc4, hname⟩ := h
  subst hname
  exact ⟨r, r1, r2, r3, r4, hpi, hc1, hc2, hc3, hc4⟩

/-! ## C4: matcher priority — exclusion lemmas

When the pattern loop `continue`s past a stoplisted capture, any later
pattern either fails on that line or captures the very same identifier, so
the loop's outcome coincides with "first matching pattern wins". -/

theorem funcDecl_parse (l N : Line) (h : matchFunctionDecl l = some N) :
    ∃ w l1', skipWs l = "function".toList ++ (w :: l1') ∧ pyIsSpace w = true ∧
      parseIdent (skipWs l) = some ("function".toList, w :: l1') ∧
      matchAfterIdent (l1'.dropWhile pyIsSpace) = some N := by
  obtain ⟨l1, l2, hlit, hws, hmai⟩ := matchFunctionDecl_some l N h
  obtain ⟨w, l1', hl1, hw, hl2⟩ := expectWs1_some _ _ hws
  have hdec : skipWs l = "function".toList ++ l1 := expectLit_some _ _ _ hlit
  subst hl1
  subst hl2
  refine ⟨w, l1', hdec, hw, ?_, hmai⟩
  rw [hdec]
  exact parseIdent_append 'f' ("unction".toList) (w :: l1') (by decide) (by decide)
    (by intro d b' hd; injection hd with h1 _; rw [← h1]; exact ws_not_identChar w hw)

theorem asyncQualifier_parse (m M : Line) (h : asyncQualifier m = some M) :
    ∃ w l1', m = "async".toList ++ (w :: l1') ∧ pyIsSpace w = true ∧
      parseIdent m = some ("async".toList, w :: l1') ∧
      matchAfterIdent (l1'.dropWhile pyIsSpace) = some M := by
  obtain ⟨l1, l2, hlit, hws, hmai⟩ := asyncQualifier_some _ _ h
  obtain ⟨w, l1', hl1, hw, hl2⟩ := expectWs1_some _ _ hws
  have hdec : m = "async".toList ++ l1 := expectLit_some _ _ _ hlit
  subst hl1
  subst hl2
  refine ⟨w, l1', hdec, hw, ?_, hmai⟩
  rw [hdec]
  exact parseIdent_append 'a' ("sync".toList) (w :: l1') (by decide) (by decide)
    (by intro d b' hd; injection hd with h1 _; rw [← h1]; exact ws_not_identChar w hw)

theorem skipWs_cons_ws (w : Char) (l : Line) (hw : pyIsSpace w = true) :
    skipWs (w :: l) = l.dropWhile pyIsSpace := by
  simp [skipWs, List.dropWhile_cons, hw]

/-- E1: if pattern 1 matches, the `async` qualifier of pattern 4 cannot
apply, so pattern 4 matches with the same capture. -/
theorem methodDef_forces_async (l N : Line) (h : matchMethodDef l = some N) :
    matchAsyncMethod l = some N := by
  have h' : matchAfterIdent (skipWs l) = some N := h
  cases ha : asyncQualifier (skipWs l) with
  | none => simp [matchAsyncMethod, ha, h']
  | some M =>
    exfalso
    obtain ⟨w, l1', hdec, hw, hpiA, hmai⟩ := asyncQualifier_parse _ _ ha
    obtain ⟨r, r1, r2, hpi2, hpp, _⟩ := matchAfterIdent_some _ _ h'
    rw [hpiA] at hpi2
    have hpr := Option.some.inj hpi2
    have hr : (w :: l1' : Line) = r := congrArg Prod.snd hpr
    have hsk : skipWs r = l1'.dropWhile pyIsSpace := by
      rw [← hr]
      exact skipWs_cons_ws w l1' hw
    rw [hsk] at hpp
    obtain ⟨t, hlp⟩ := parseParens_some _ _ hpp
    obtain ⟨r', _, _, hpi3, _, _⟩ := matchAfterIdent_some _ _ hmai
    obtain ⟨c, rest, hcons, hcid, _, _⟩ := parseIdent_some _ _ _ hpi3
    rw [hlp] at hcons
    injection hcons with h1 _
    rw [← h1] at hcid
    exact absurd hcid (by decide)

/-- E2: patterns 1 and 2 can match the same line only with capture
`function` (never a stoplisted keyword). -/
theorem funcDecl_forces_function (l N M : Line) (h1 : matchMethodDef l = some N)
    (h2 : matchFunctionDecl l = some M) : N = "function".toList := by
  obtain ⟨w, l1', _, hw, hpi, _⟩ := funcDecl_parse l M h2
  obtain ⟨r, r1, r2, hpi2, _, _⟩ := matchAfterIdent_some _ _ h1
  rw [hpi] at hpi2
  exact (congrArg Prod.fst (Option.some.inj hpi2)).symm

/-- E3: patterns 1 and 3 never match the same line. -/
theorem methodDef_excludes_arrow (l N : Line) (h1 : matchMethodDef l = some N) :
    matchArrowFunc l = none := by
  cases hA : matchArrowFunc l with
  | none => rfl
  | some M =>
    exfalso
    obtain ⟨r, r1, r2, hpi, hpp, _⟩ := matchAfterIdent_some _ _ h1
    obtain ⟨r', r1', r2', r3', r4', hpi', heq, _, _, _⟩ := matchArrowFunc_some _ _ hA
    have hpi'' : parseIdent (skipWs l) = some (N, r) := hpi
    rw [hpi''] at hpi'
    have hpr := Option.some.inj hpi'
    have hrr : r = r' := congrArg Prod.snd hpr
    rw [← hrr] at heq
    obtain ⟨t, ht⟩ := parseParens_some _ _ hpp
    have ht2 := expectChar_some _ _ _ heq
    rw [ht] at ht2
    injection ht2 with hc _
    exact absurd hc (by decide)

/-- E4: patterns 2 and 3 never match the same line. -/
theorem funcDecl_excludes_arrow (l N : Line) (h2 : matchFunctionDecl l = some N) :
    matchArrowFunc l = none := by
  cases hA : matchArrowFunc l with
  | none => rfl
  | some M =>
    exfalso
    obtain ⟨w, l1', hdec, hw, hpi, hmai⟩ := funcDecl_parse l N h2
    obtain ⟨r', r1', r2', r3', r4', hpi', heq, _, _, _⟩ := matchArrowFunc_some _ _ hA
    rw [hpi] at hpi'
    have hpr := Option.some.inj hpi'
    have hrr : (w :: l1' : Line) = r' := congrArg Prod.snd hpr
    rw [← hrr, skipWs_cons_ws w l1' hw] at heq
    have ht2 := expectChar_some _ _ _ heq
    obtain ⟨r, _, _, hpi3, _, _⟩ := matchAfterIdent_some _ _ hmai
    obtain ⟨c, rest, hcons, hcid, _, _⟩ := parseIdent_some _ _ _ hpi3
    rw [ht2] at hcons
    injection hcons with h1 _
    rw [← h1] at hcid
    exact absurd hcid (by decide)

/-- E5: when pattern 2 matches, pattern 4 fails. -/
theorem funcDecl_excludes_async (l N : Line) (h2 : matchFunctionDecl l = some N) :
    matchAsyncMethod l = none := by
  obtain ⟨w, l1', hdec, hw, hpi, hmai⟩ := funcDecl_parse l N h2
  have hq : asyncQualifier (skipWs l) = none := by
    have hlit : expectLit ("async".toList) (skipWs l) = none := by
      rw [hdec]
      have he : ("function".toList : Line) ++ (w :: l1') =
          'f' :: ("unction".toList ++ (w :: l1')) := rfl
      rw [he]
      simp [expectLit]
    simp only [asyncQualifier, hlit, Option.none_bind]
  have hplain : matchAfterIdent (skipWs l) = none := by
    obtain ⟨r, _, _, hpi3, _, _⟩ := matchAfterIdent_some _ _ hmai
    obtain ⟨c, rest, hcons, hcid, _, _⟩ := parseIdent_some _ _ _ hpi3
    have hpp : parseParens (skipWs (w :: l1' : Line)) = none := by
      rw [skipWs_cons_ws w l1' hw, hcons]
      have hcne : ¬ c = '(' := by
        intro hc
        rw [hc] at hcid
        exact absurd hcid (by decide)
      simp [parseParens, expectChar, hcne]
    simp [matchAfterIdent, hpi, hpp]
  simp [matchAsyncMethod, hq, hplain]

/-- E6: when pattern 3 matches, pattern 4 fails. -/
theorem arrow_excludes_async (l N : Line) (h3 : matchArrowFunc l = some N) :
    matchAsyncMethod l = none := by
  obtain ⟨r, r1, r2, r3, r4, hpi, heq, hpp, hlit, hec⟩ := matchArrowFunc_some _ _ h3
  have hsk := expectChar_some _ _ _ heq
  have hplain : matchAfterIdent (skipWs l) = none := by
    have hppn : parseParens (skipWs r) = none := by
      rw [hsk]
      simp [parseParens, expectChar]
    simp [matchAfterIdent, hpi, hppn]
  have hq : asyncQualifier (skipWs l) = none := by
    cases ha : asyncQualifier (skipWs l) with
    | none => rfl
    | some M =>
      exfalso
      obtain ⟨w, l1', hdec, hw, hpiA, hmai⟩ := asyncQualifier_parse _ _ ha
      rw [hpi] at hpiA
      have hpr := Option.some.inj hpiA
      have hrl : r = (w :: l1' : Line) := congrArg Prod.snd hpr
      have hskr : skipWs r = l1'.dropWhile pyIsSpace := by
        rw [hrl]
        exact skipWs_cons_ws w l1' hw
      rw [hskr] at hsk
      obtain ⟨rr, _, _, hpi3, _, _⟩ := matchAfterIdent_some _ _ hmai
      obtain ⟨c, rest, hcons, hcid, _, _⟩ := parseIdent_some _ _ _ hpi3
      rw [hsk] at hcons
      injection hcons with h1 _
      rw [← h1] at hcid
      exact absurd hcid (by decide)
  simp [matchAsyncMethod, hq, hplain]

/-! ## C4: matcher priority — main theorem -/

theorem matchLine_eq_spec (l : Line) : matchLine l = matchLineSpec l := by
  unfold matchLine matchLineSpec patterns
  cases h1 : matchMethodDef l with
  | some N =>
    by_cases hk : N ∈ controlKeywords
    · have h2 : matchFunctionDecl l = none := by
        cases h2 : matchFunctionDecl l with
        | none => rfl
        | some M =>
          exfalso
          have hfn := funcDecl_forces_function l N M h1 h2
          rw [hfn] at hk
          exact absurd hk (by decide)
      have h3 : matchArrowFunc l = none := methodDef_excludes_arrow l N h1
      have h4 : matchAsyncMethod l = some N := methodDef_forces_async l N h1
      simp [tryPatterns, firstPatternMatch, h1, h2, h3, h4, hk]
    · simp [tryPatterns, firstPatternMatch, h1, hk]
  | none =>
    cases h2 : matchFunctionDecl l with
    | some N =>
      by_cases hk : N ∈ controlKeywords
      · have h3 : matchArrowFunc l = none := funcDecl_excludes_arrow l N h2
        have h4 : matchAsyncMethod l = none := funcDecl_excludes_async l N h2
        simp [tryPatterns, firstPatternMatch, h1, h2, h3, h4, hk]
      · simp [tryPatterns, firstPatternMatch, h1, h2, hk]
    | none =>
      cases h3 : matchArrowFunc l with
      | some N =>
        by_cases hk : N ∈ controlKeywords
        · have h4 : matchAsyncMethod l = none := arrow_excludes_async l N h3
          simp [tryPatterns, firstPatternMatch, h1, h2, h3, h4, hk]
        · simp [tryPatterns, firstPatternMatch, h1, h2, h3, hk]
      | none =>
        cases h4 : matchAsyncMethod l with
        | some N =>
          by_cases hk : N ∈ controlKeywords <;>
            simp [tryPatterns, firstPatternMatch, h1, h2, h3, h4, hk]
        | none => simp [tryPatterns, firstPatternMatch, h1, h2, h3, h4]

theorem extract_entry_origin (fp : Line) (lines : List Line) (e : CatalogEntry)
    (h : e ∈ extract_functions_from_file fp lines) :
    ∃ i, i ∈ List.range lines.length ∧ matchLine (lines.getD i []) = some e.name ∧
      e.line = i + 1 := by
  obtain ⟨i, hi, hmap⟩ := List.mem_filterMap.mp h
  obtain ⟨name, hname, hent⟩ := Option.map_eq_some'.mp hmap
  subst hent
  exact ⟨i, hi, hname, rfl⟩

theorem filterMap_line_sublist (g : Nat → Option CatalogEntry)
    (hg : ∀ j e, g j = some e → e.line = j + 1) :
    ∀ js : List Nat,
      List.Sublist ((js.filterMap g).map (fun e => e.line)) (js.map (· + 1))
  | [] => by simp
  | j :: js => by
    cases hj : g j with
    | none =>
      simp only [List.filterMap_cons, hj, List.map_cons]
      exact List.Sublist.cons _ (filterMap_line_sublist g hg js)
    | some e =>
      simp only [List.filterMap_cons, hj, List.map_cons]
      rw [hg j e hj]
      exact List.Sublist.cons₂ _ (filterMap_line_sublist g hg js)

theorem extract_lines_nodup (fp : Line) (lines : List Line) :
    ((extract_functions_from_file fp lines).map (fun e => e.line)).Nodup := by
  have hg : ∀ j e,
      ((matchLine (lines.getD j [])).map fun name =>
        ({ name := name, description := descriptionAt lines j, file := fp,
           line := j + 1 } : CatalogEntry)) = some e → e.line = j + 1 := by
    intro j e hje
    obtain ⟨name, _, hent⟩ := Option.map_eq_some'.mp hje
    subst hent
    rfl
  have hs := filterMap_line_sublist _ hg (List.range lines.length)
  have hinj : Function.Injective (fun n : Nat => n + 1) := fun a b hab =>
    Nat.succ_injective hab
  exact hs.nodup ((List.nodup_range _).map hinj)

theorem nodup_map_filter_le_one {β : Type} (f : β → Nat) (l : List β)
    (h : (l.map f).Nodup) (v : Nat) :
    (l.filter fun e => decide (f e = v)).length ≤ 1 := by
  induction l with
  | nil => simp
  | cons e l ih =>
    simp only [List.map_cons, List.nodup_cons] at h
    by_cases he : f e = v
    · have hnil : (l.filter fun x => decide (f x = v)) = [] := by
        rw [List.filter_eq_nil_iff]
        intro x hx
        simp only [decide_eq_true_eq]
        intro hv
        exact h.1 (List.mem_map.mpr ⟨x, hx, by rw [hv, he]⟩)
      simp [List.filter_cons, he, hnil]
    · simp [List.filter_cons, he]
      exact ih h.2

/-- C4: per line the four shape matchers are tried in their fixed priority
order and the outcome is that of the first matching matcher (with the
stoplist discard); consequently each line yields at most one catalog entry,
and an entry's identifier is the capture of the first matcher that matches
its line. -/
theorem matcher_priority :
    (∀ l : Line, matchLine l = matchLineSpec l) ∧
    (∀ (fp : Line) (lines : List Line) (i : Nat),
       ((extract_functions_from_file fp lines).filter fun x =>
           decide (x.line = i + 1)).length ≤ 1) ∧
    (∀ (fp : Line) (lines : List Line) (e : CatalogEntry),
       e ∈ extract_functions_from_file fp lines →
         firstPatternMatch (lines.getD (e.line - 1) []) patterns = some e.name) := by
  refine ⟨matchLine_eq_spec, ?_, ?_⟩
  · intro fp lines i
    exact nodup_map_filter_le_one _ _ (extract_lines_nodup fp lines) _
  · intro fp lines e he
    obtain ⟨j, _, hm, hline⟩ := extract_entry_origin fp lines e he
    have hj : e.line - 1 = j := by omega
    rw [hj]
    rw [matchLine_eq_spec] at hm
    unfold matchLineSpec at hm
    cases hf : firstPatternMatch (lines.getD j []) patterns with
    | none =>
      simp only [hf] at hm
      exact Option.noConfusion hm
    | some M =>
      simp only [hf] at hm
      by_cases hk : M ∈ controlKeywords
      · rw [if_pos hk] at hm
        exact Option.noConfusion hm
      · rw [if_neg hk] at hm
        exact hm

theorem matcher_priority_witness :
    ((⟨"foo".toList, noDescription, "a.js".toList, 1⟩ : CatalogEntry) ∈
       extract_functions_from_file ("a.js".toList) wLinesSimple) ∧
    firstPatternMatch (wLinesSimple.getD (1 - 1) []) patterns = some ("foo".toList) :=
  ⟨by decide,
   matcher_priority.2.2 ("a.js".toList) wLinesSimple
     ⟨"foo".toList, noDescription, "a.js".toList, 1⟩ (by decide)⟩

/-! ## C1 and C10: doc-comment association -/

theorem extract_jsdoc_comment_succ (lines : List Line) (i : Nat) :
    extract_jsdoc_comment lines (i + 1) =
      if (scanUp lines i).isEmpty then none else some (cleanupJsdoc (scanUp lines i)) := rfl

theorem scanUp_skip (lines : List Line) :
    ∀ (n t : Nat),
      (∀ j, t < j → j ≤ t + n →
        endsWith ("*/".toList) (lineAt lines j) = false ∧
        isSkippable (lineAt lines j) = true) →
      scanUp lines (t + n) = scanUp lines t := by
  intro n
  induction n with
  | zero => intro t _; rfl
  | succ n ih =>
    intro t h
    have hj := h (t + n + 1) (by omega) (by omega)
    have e1 : t + (n + 1) = (t + n) + 1 := rfl
    rw [e1]
    have e2 : scanUp lines ((t + n) + 1) = scanUp lines (t + n) := by
      simp only [scanUp]
      rw [hj.1, hj.2]
      simp
    rw [e2]
    exact ih t fun j h1 h2 => h j h1 (by omega)

theorem commentSlice_snoc (lines : List Line) (o t : Nat) (h : o ≤ t) :
    commentSlice lines o (t + 1) = commentSlice lines o t ++ [lineAt lines (t + 1)] := by
  simp only [commentSlice]
  have h1 : t + 1 + 1 - o = (t + 1 - o) + 1 := by omega
  rw [h1, List.range_succ, List.map_append]
  have h2 : o + (t + 1 - o) = t + 1 := by omega
  simp [h2]

theorem commentSlice_self (lines : List Line) (o : Nat) :
    commentSlice lines o o = [lineAt lines o] := by
  have h1 : o + 1 - o = 1 := by omega
  simp [commentSlice, h1, List.range_succ]

theorem collectUp_to_opener (lines : List Line) :
    ∀ (n o : Nat) (acc : List Line),
      startsWith ("/**".toList) (lineAt lines o) = true →
      (∀ j, o < j → j ≤ o + n → startsWith ("/**".toList) (lineAt lines j) = false) →
      collectUp lines (o + n) acc = commentSlice lines o (o + n) ++ acc := by
  intro n
  induction n with
  | zero =>
    intro o acc hopen _
    cases o with
    | zero => simp [collectUp, commentSlice_self]
    | succ o' =>
      simp only [collectUp]
      rw [hopen]
      rw [commentSlice_self]
      simp
  | succ n ih =>
    intro o acc hopen hno
    have hlast : startsWith ("/**".toList) (lineAt lines (o + n + 1)) = false :=
      hno (o + n + 1) (by omega) (by omega)
    have e1 : o + (n + 1) = (o + n) + 1 := rfl
    rw [e1]
    have step : collectUp lines ((o + n) + 1) acc =
        collectUp lines (o + n) (lineAt lines ((o + n) + 1) :: acc) := by
      simp only [collectUp]
      rw [hlast]
      simp
    rw [step, ih o _ hopen (fun j h1 h2 => hno j h1 (by omega)), List.append_cons]
    rw [← commentSlice_snoc lines o (o + n) (by omega)]

theorem collectUp_to_start (lines : List Line) :
    ∀ (k : Nat) (acc : List Line),
      (∀ j, j ≤ k → startsWith ("/**".toList) (lineAt lines j) = false) →
      collectUp lines k acc = commentSlice lines 0 k ++ acc
  | 0, acc, _ => by
    simp [collectUp, commentSlice_self]
  | k + 1, acc, h => by
    have hk := h (k + 1) (le_refl _)
    have step : collectUp lines (k + 1) acc =
        collectUp lines k (lineAt lines (k + 1) :: acc) := by
      simp only [collectUp]
      rw [hk]
      simp
    rw [step, collectUp_to_start lines k _ (fun j hj => h j (by omega)), List.append_cons]
    rw [← commentSlice_snoc lines 0 k (by omega)]

/-- C1 (amended): for a function-shaped line whose upward scan — skipping
blank and `//` lines none of which ends in `*/` — reaches a terminator line
ending in `*/` at index `t`, with the nearest opener line starting `/**` at
index `o` strictly below `t`, the extracted description is the
code's cleanup of the stripped lines `o..t`: lines starting with `/**` or
`*/` are discarded whole, a leading `*` is stripped, empty lines are
dropped, and the rest joined by single spaces (a `*/` not at a line's start
is retained). -/
theorem extract_jsdoc_wellformed (lines : List Line) (i t o : Nat)
    (hot : o < t) (hti : t < i)
    (hterm : endsWith ("*/".toList) (lineAt lines t) = true)
    (hopen : startsWith ("/**".toList) (lineAt lines o) = true)
    (hskip : ∀ j, t < j → j < i →
      endsWith ("*/".toList) (lineAt lines j) = false ∧
      isSkippable (lineAt lines j) = true)
    (hnoopen : ∀ j, o < j → j < t → startsWith ("/**".toList) (lineAt lines j) = false) :
    extract_jsdoc_comment lines i = some (cleanupJsdoc (commentSlice lines o t)) := by
  obtain ⟨i', rfl⟩ : ∃ i', i = i' + 1 := ⟨i - 1, by omega⟩
  obtain ⟨n, rfl⟩ : ∃ n, i' = t + n := ⟨i' - t, by omega⟩
  have hskip2 : scanUp lines (t + n) = scanUp lines t :=
    scanUp_skip lines n t fun j h1 h2 => hskip j h1 (by omega)
  rw [extract_jsdoc_comment_succ, hskip2]
  obtain ⟨t', rfl⟩ : ∃ t', t = t' + 1 := ⟨t - 1, by omega⟩
  have hterm2 : scanUp lines (t' + 1) = collectUp lines t' [lineAt lines (t' + 1)] := by
    simp only [scanUp]
    rw [hterm]
    simp
  obtain ⟨m, rfl⟩ : ∃ m, t' = o + m := ⟨t' - o, by omega⟩
  rw [hterm2,
      collectUp_to_opener lines m o _ hopen (fun j h1 h2 => hnoopen j h1 (by omega)),
      ← commentSlice_snoc lines o (o + m) (by omega)]
  have hne : (commentSlice lines o (o + m + 1)).isEmpty = false := by
    have hlen : (commentSlice lines o (o + m + 1)).length = m + 2 := by
      simp only [commentSlice, List.length_map, List.length_range]
      omega
    cases he : commentSlice lines o (o + m + 1) with
    | nil => rw [he] at hlen; simp at hlen
    | cons a l => rfl
  rw [hne]
  simp

/-- C1 counterexample: in the first file the function line is preceded by
the block comment `/**` / `* ok */` with one `//` comment line between them;
the claim prescribes the description `ok`, the code yields
`ok */ // note */` (the `//` line, ending in `*/`, is taken as the
terminator, and trailing close markers are never stripped).  In the second
file a single-line comment `/** Plays */` directly precedes the function;
the claim prescribes `Plays`, the code scans past it and yields the code
line `a = 1`. -/
theorem extract_jsdoc_claim_counterexample :
    extract_jsdoc_comment cxLines 3 = some ("ok */ // note */".toList) ∧
    claimClean ["/**".toList, " * ok */".toList] = "ok".toList ∧
    extract_jsdoc_comment cxLines 3 ≠ some (claimClean ["/**".toList, " * ok */".toList]) ∧
    extract_jsdoc_comment cxLinesSingle 2 = some ("a = 1".toList) ∧
    claimClean ["/** Plays */".toList] = "Plays".toList ∧
    extract_jsdoc_comment cxLinesSingle 2 ≠ some (claimClean ["/** Plays */".toList]) := by
  refine ⟨by decide, by decide, by decide, by decide, by decide, by decide⟩

theorem extract_jsdoc_wellformed_witness :
    extract_jsdoc_comment wLinesJsdoc 4 =
      some (cleanupJsdoc (commentSlice wLinesJsdoc 0 2)) ∧
    cleanupJsdoc (commentSlice wLinesJsdoc 0 2) = "Plays the death sound".toList := by
  constructor
  · exact extract_jsdoc_wellformed wLinesJsdoc 4 2 0 (by omega) (by omega)
      (by decide) (by decide)
      (by intro j h1 h2
          have : j = 3 := by omega
          subst this
          exact ⟨by decide, by decide⟩)
      (by intro j h1 h2
          have : j = 1 := by omega
          subst this
          decide)
  · decide

/-- C10: when the upward scan finds a terminator at index `t` but no opener
line occurs anywhere above it, the partial collection is used as-is: every
stripped line from index `0` through `t` — ordinary code lines included — is
collected, and the cleaned, space-joined result is the extracted
description (which becomes the entry's description whenever it is
non-empty; an empty cleanup falls back to the sentinel). -/
theorem extract_jsdoc_no_opener (lines : List Line) (i t : Nat)
    (hti : t < i)
    (hterm : endsWith ("*/".toList) (lineAt lines t) = true)
    (hskip : ∀ j, t < j → j < i →
      endsWith ("*/".toList) (lineAt lines j) = false ∧
      isSkippable (lineAt lines j) = true)
    (hnoopen : ∀ j, j < t → startsWith ("/**".toList) (lineAt lines j) = false) :
    extract_jsdoc_comment lines i = some (cleanupJsdoc (commentSlice lines 0 t)) ∧
    (cleanupJsdoc (commentSlice lines 0 t) ≠ [] →
      descriptionAt lines i = cleanupJsdoc (commentSlice lines 0 t)) := by
  have hmain : extract_jsdoc_comment lines i =
      some (cleanupJsdoc (commentSlice lines 0 t)) := by
    obtain ⟨i', rfl⟩ : ∃ i', i = i' + 1 := ⟨i - 1, by omega⟩
    obtain ⟨n, rfl⟩ : ∃ n, i' = t + n := ⟨i' - t, by omega⟩
    have hskip2 : scanUp lines (t + n) = scanUp lines t :=
      scanUp_skip lines n t fun j h1 h2 => hskip j h1 (by omega)
    rw [extract_jsdoc_comment_succ, hskip2]
    have hscan : scanUp lines t = commentSlice lines 0 t := by
      cases t with
      | zero =>
        simp only [scanUp]
        rw [hterm, commentSlice_self]
        simp
      | succ t' =>
        have hterm2 : scanUp lines (t' + 1) =
            collectUp lines t' [lineAt lines (t' + 1)] := by
          simp only [scanUp]
          rw [hterm]
          simp
        rw [hterm2, collectUp_to_start lines t' _ (fun j hj => hnoopen j (by omega)),
            ← commentSlice_snoc lines 0 t' (by omega)]
    rw [hscan]
    have hne : (commentSlice lines 0 t).isEmpty = false := by
      have hlen : (commentSlice lines 0 t).length = t + 1 := by
        simp [commentSlice]
      cases he : commentSlice lines 0 t with
      | nil => rw [he] at hlen; simp at hlen
      | cons a l => rfl
    rw [hne]
    simp
  refine ⟨hmain, ?_⟩
  intro hne
  simp only [descriptionAt, hmain]
  have hb : (cleanupJsdoc (commentSlice lines 0 t)).isEmpty = false := by
    cases hc : cleanupJsdoc (commentSlice lines 0 t) with
    | nil => exact absurd hc hne
    | cons a l => rfl
  rw [hb]
  simp

theorem extract_jsdoc_no_opener_witness :
    extract_jsdoc_comment wLinesNoOpener 3 =
      some (cleanupJsdoc (commentSlice wLinesNoOpener 0 1)) ∧
    cleanupJsdoc (commentSlice wLinesNoOpener 0 1) = "const a = 1; done */".toList ∧
    descriptionAt wLinesNoOpener 3 = "const a = 1; done */".toList := by
  have h := extract_jsdoc_no_opener wLinesNoOpener 3 1 (by omega) (by decide)
    (by intro j h1 h2
        have : j = 2 := by omega
        subst this
        exact ⟨by decide, by decide⟩)
    (by intro j h1
        have : j = 0 := by omega
        subst this
        decide)
  refine ⟨h.1, by decide, ?_⟩
  have h2 := h.2 (by decide)
  rw [h2]
  decide
